import Mathlib

/-!
Shallow embedding of the `aws-serverless-kv` backend (Python) and proofs
about its core algorithms: the chunker (`document_processor.chunk_text`),
the ingestion embed-and-store loop, the extraction dispatcher
(`extract_text`), the quota enforcer (`lambda_function.check_and_update_quota`),
cosine similarity, the retrieval engine (`rag.retrieve_context`) and the
prompt builder (`rag.build_rag_prompt`).

Python strings are modelled as `List Char`; Python integers (which may go
negative in `chunk_text`'s sliding-window loop) as `Int`, with Python's
slice-index clamping made explicit.
-/

namespace KV

/-- Python's whitespace test as used by `str.strip` (modelled by Lean's
`Char.isWhitespace`: space, tab, CR, LF — the texts handled here contain no
other Unicode whitespace). -/
def isWS (c : Char) : Bool := c.isWhitespace

/-- Python `str.strip()`: drop whitespace from both ends. -/
def pyStrip (l : List Char) : List Char :=
  ((l.dropWhile isWS).reverse.dropWhile isWS).reverse

/-- Helper for the newline-collapsing regex substitution in `chunk_text`:
`k` counts the pending run of newlines; a run of 3 or more is emitted as
exactly two newlines, shorter runs are emitted unchanged. -/
def collapseGo : Nat → List Char → List Char
  | k, [] => List.replicate (if 3 ≤ k then 2 else k) '\n'
  | k, c :: cs =>
    if c = '\n' then collapseGo (k + 1) cs
    else List.replicate (if 3 ≤ k then 2 else k) '\n' ++ c :: collapseGo 0 cs

/-- The normalisation step at the top of `chunk_text`:
`re.sub` of three-or-more newlines to two, applied to `text.strip()`. -/
def pyNormalize (l : List Char) : List Char := collapseGo 0 (pyStrip l)

/-- Python slice-index normalisation: a negative index counts from the end
(clamped at 0), a non-negative index is clamped at the length. -/
def pySliceIdx (n : Nat) (i : Int) : Nat :=
  if i < 0 then ((n : Int) + i).toNat else min i.toNat n

/-- Python `s[a:b]` on a char list. -/
def pySlice (l : List Char) (a b : Int) : List Char :=
  (l.take (pySliceIdx l.length b)).drop (pySliceIdx l.length a)

/-- Does `pat` occur in `t` starting at position `i`? -/
def matchAtB (t pat : List Char) (i : Nat) : Bool := pat.isPrefixOf (t.drop i)

/-- Scan downward from candidate position `i` to `lo` for the highest
occurrence of `pat`; `-1` when there is none. -/
def rfindDown (t pat : List Char) (lo : Nat) : Nat → Int
  | 0 => if lo = 0 ∧ matchAtB t pat 0 then 0 else -1
  | i + 1 =>
    if lo ≤ i + 1 ∧ matchAtB t pat (i + 1) then ((i : Int) + 1)
    else rfindDown t pat lo i

/-- Python `t.rfind(pat, a, b)`: highest `i` with `a' ≤ i` and
`i + pat.length ≤ b'` (after slice-index clamping) such that `pat` occurs
at `i`; `-1` when there is none. -/
def pyRfind (t pat : List Char) (a b : Int) : Int :=
  let lo := pySliceIdx t.length a
  let hi := pySliceIdx t.length b
  if pat.length ≤ hi then rfindDown t pat lo (hi - pat.length) else -1

/-- `CHUNK_SIZE` from document_processor.py. -/
def CHUNK_SIZE : Int := 500

/-- `CHUNK_OVERLAP` from document_processor.py. -/
def CHUNK_OVERLAP : Int := 100

/-- The cut-point computation for one window of `chunk_text`: when the
naive cut `start + cs` falls strictly inside the text, take the maximum of
the last occurrences of `". "`, `".\n"` and `"\n\n"` in the window; if that
is a real match lying strictly beyond `start + o`, cut just after it;
otherwise fall back to the last space strictly after `start`; otherwise cut
at exactly `start + cs`. -/
def chunkEnd (t : List Char) (cs o start : Int) : Int :=
  let e := start + cs
  if e < (t.length : Int) then
    let boundary := max (pyRfind t ['.', ' '] start e)
      (max (pyRfind t ['.', '\n'] start e) (pyRfind t ['\n', '\n'] start e))
    if boundary ≠ -1 ∧ boundary > start + o then boundary + 1
    else
      let sp := pyRfind t [' '] start e
      if sp > start then sp else e
  else e

/-- The `while start < len(text)` loop of `chunk_text`, with explicit fuel:
`none` means the fuel ran out while the loop was still running. -/
def chunkLoop (t : List Char) (cs o : Int) : Nat → Int → Nat → Option (List (Nat × List Char))
  | 0, start, _ => if start < (t.length : Int) then none else some []
  | fuel + 1, start, idx =>
    if start < (t.length : Int) then
      let e := chunkEnd t cs o start
      let chunk := pyStrip (pySlice t start e)
      if chunk = [] then chunkLoop t cs o fuel (e - o) idx
      else (chunkLoop t cs o fuel (e - o) (idx + 1)).map (fun rest => (idx, chunk) :: rest)
    else some []

/-- `chunk_text(text, chunk_size, overlap)` from document_processor.py,
with explicit loop fuel (`none` = the loop did not finish within `fuel`
iterations). -/
def chunkText (text : String) (cs o : Int) (fuel : Nat) : Option (List (Nat × String)) :=
  (chunkLoop (pyNormalize text.data) cs o fuel 0 0).map
    (List.map (fun p => (p.1, String.mk p.2)))

/-! ### Quota enforcer (lambda_function.check_and_update_quota) -/

/-- `DAILY_MSG_LIMIT` from lambda_function.py. -/
def DAILY_MSG_LIMIT : Nat := 20

/-- One DynamoDB conditional update of `check_and_update_quota` on a single
`(user_id, date)` item. The state is the item's `request_count` attribute
(`none` = item absent). The condition expression is
`request_count < :limit OR attribute_not_exists(request_count)`; the update
sets `request_count = if_not_exists(request_count, 0) + 1`. The function
returns `true` when the conditional update succeeds and `false` on
`ConditionalCheckFailedException` (in which case DynamoDB leaves the item
unchanged). -/
def quotaUpdate (limit : Nat) (s : Option Nat) : Bool × Option Nat :=
  match s with
  | none => (true, some 1)
  | some c => if c < limit then (true, some (c + 1)) else (false, some c)

/-- Counter state after `n` calls of `check_and_update_quota` for one user
on one day, starting from an absent item. -/
def quotaIter : Nat → Option Nat
  | 0 => none
  | n + 1 => (quotaUpdate DAILY_MSG_LIMIT (quotaIter n)).2

/-- Return value of the `n`-th call (1-based) of `check_and_update_quota`
for one user on one day, starting from an absent item. -/
def quotaCall (n : Nat) : Bool := (quotaUpdate DAILY_MSG_LIMIT (quotaIter (n - 1))).1

/-! ### Ingestion pipeline (document_processor.lambda_handler) -/

/-- Document status as written by `_update_status`. -/
inductive DocStatus
  | processing
  | indexed (chunkCount : Nat)
  | error (msg : String)

/-- `doc_key.split("/")[-1]`: the basename after the last slash. -/
def baseName (key : String) : String :=
  String.mk ((key.data.reverse.takeWhile (fun c => c ≠ '/')).reverse)

/-- Zero-padded chunk index, Python `f"{chunk_idx:05d}"`. -/
def pad5 (n : Nat) : String :=
  let s := toString n
  String.mk (List.replicate (5 - s.length) '0') ++ s

/-- One item of the `document-chunks` table as written by `store_chunk`
(the embedding is stored JSON-serialised in the code; the serialisation is
modelled by the vector itself). -/
structure StoredChunk where
  user_id : String
  chunk_id : String
  doc_key : String
  filename : String
  chunk_index : Nat
  chunk_text : String
  embedding : List ℝ

/-- The embed-and-store loop of `document_processor.lambda_handler`
(step 4). `generate_embedding` does not catch service errors, so a failure
(modelled by `embedSvc` returning `.error`) raises, aborting the loop; the
first component collects the chunks actually written by `store_chunk`
before the failure, the second is the pending exception (none = loop
completed). -/
def storeChunksLoop (embedSvc : String → Except String (List ℝ)) (user key : String) :
    List (Nat × String) → List StoredChunk × Option String
  | [] => ([], none)
  | (i, body) :: rest =>
    match embedSvc body with
    | .error msg => ([], some msg)
    | .ok v =>
      let r := storeChunksLoop embedSvc user key rest
      (⟨user, key ++ "#" ++ pad5 i, key, baseName key, i, body, v⟩ :: r.1, r.2)

/-- Steps 4-5 of `document_processor.lambda_handler` for one document,
after chunking, together with the surrounding `try/except`: if the
embed-and-store loop completes, status becomes `indexed` with the chunk
count; if `generate_embedding` raised, the top-level handler catches the
exception and records status `error` with its message. -/
def processAfterChunking (embedSvc : String → Except String (List ℝ))
    (user key : String) (chunks : List (Nat × String)) : DocStatus × List StoredChunk :=
  let r := storeChunksLoop embedSvc user key chunks
  match r.2 with
  | none => (DocStatus.indexed chunks.length, r.1)
  | some msg => (DocStatus.error msg, r.1)

/-! ### Extraction dispatch (document_processor.extract_text) -/

/-- `ALLOWED_EXTENSIONS` (kept in sync between both lambda files). -/
def allowedExtensions : List String :=
  ["pdf", "docx", "txt", "csv", "md", "png", "jpg", "jpeg", "tiff"]

/-- `key.rsplit(".", 1)[-1].lower() if "." in key else ""`. -/
def extOf (key : String) : String :=
  if key.data.contains '.' then
    String.mk (((key.data.reverse.takeWhile (fun c => c ≠ '.')).reverse).map Char.toLower)
  else ""

/-- Failure modes of `extract_text`: an uncaught collaborating-service
error, or the `ValueError("Unsupported file type ...")` raised when the
final plain-text fallback read fails. -/
inductive ExtErr
  | service (msg : String)
  | unsupportedType (ext msg : String)
deriving DecidableEq

/-- `extract_text` from document_processor.py. The external collaborators
are passed in: `readObj` models `s3.get_object` plus UTF-8 decode (the
decode itself cannot fail, `errors="replace"`); `ocr` models the Textract
path (`extract_text_with_textract_sync`, including its async fallback).
Their errors propagate uncaught, except in the final fallback branch,
where a failed plain-text read is converted into the
`Unsupported file type` ValueError. -/
def extractText (readObj ocr : Except String String) (key : String) : Except ExtErr String :=
  let ext := extOf key
  if ext = "txt" ∨ ext = "csv" ∨ ext = "md" then readObj.mapError ExtErr.service
  else if ext = "pdf" ∨ ext = "png" ∨ ext = "jpg" ∨ ext = "jpeg" ∨ ext = "tiff" then
    ocr.mapError ExtErr.service
  else if ext = "docx" then ocr.mapError ExtErr.service
  else
    match readObj with
    | .ok t => .ok t
    | .error msg => .error (.unsupportedType (extOf key) msg)

/-- `MAX_FILE_SIZE_MB` from document_processor.py. -/
def MAX_FILE_SIZE_MB : Nat := 10

/-- `key.split("/", 1)` as `(user_id, filename)`: `none` when the key has
no `/` or the part after the first `/` is empty (the handler then skips the
record without writing any status). -/
def splitUserKey (key : String) : Option (String × String) :=
  let pre := key.data.takeWhile (fun c => c ≠ '/')
  let post := key.data.drop (pre.length + 1)
  if key.data.contains '/' ∧ post ≠ [] then some (String.mk pre, String.mk post)
  else none

/-- Outcome of processing one S3 record: `skipped` (bad key format, no
status written), `errored msg` (status `error` with `msg`, no chunks
stored), `indexed stored` (status `indexed`, `stored` chunks written), or
`looping` (the chunk_text loop did not terminate within the given fuel). -/
inductive RecOutcome
  | skipped
  | errored (msg : String)
  | indexed (stored : List StoredChunk)
  | looping

/-- Processing of one S3 record by `document_processor.lambda_handler`
(after URL-unquoting of the key): key-format guard, extension allow-list
guard, size guard (the oversize message's interpolated size is abbreviated
here), extraction, empty-text guard, chunking, then the embed-and-store
loop. `fuel` bounds the chunk_text loop. -/
def processRecord (readObj ocr : Except String String)
    (embedSvc : String → Except String (List ℝ)) (sizeBytes : Nat)
    (key : String) (fuel : Nat) : RecOutcome :=
  match splitUserKey key with
  | none => .skipped
  | some (_user, filename) =>
    let ext := extOf filename
    if ext ∉ allowedExtensions then
      .errored ("Unsupported file type '." ++ ext ++ "'. Skipping.")
    else if MAX_FILE_SIZE_MB * 1024 * 1024 < sizeBytes then
      .errored ("File exceeds " ++ toString MAX_FILE_SIZE_MB ++ " MB limit. Skipping.")
    else
      match extractText readObj ocr key with
      | .error (ExtErr.service msg) => .errored msg
      | .error (ExtErr.unsupportedType badExt msg) =>
        .errored ("Unsupported file type '." ++ badExt ++ "': " ++ msg)
      | .ok raw =>
        if pyStrip raw.data = [] then
          .errored ("No extractable text found in '" ++ filename ++ "'.")
        else
          match chunkText raw CHUNK_SIZE CHUNK_OVERLAP fuel with
          | none => .looping
          | some chunks =>
            match processAfterChunking embedSvc _user key chunks with
            | (DocStatus.error msg, _) => .errored msg
            | (_, stored) => .indexed stored

/-! ### RAG helpers (rag.py / lambda_function.py) -/

/-- `_cosine_similarity` from rag.py (identical copy in lambda_function.py),
over exact reals. Total: every branch returns a value (the Python guards
prevent the `ZeroDivisionError`). -/
noncomputable def cosineSimilarity (a b : List ℝ) : ℝ :=
  if a.length ≠ b.length ∨ a = [] then 0
  else
    let dot := ((a.zip b).map (fun p => p.1 * p.2)).sum
    let na := Real.sqrt ((a.map (fun x => x * x)).sum)
    let nb := Real.sqrt ((b.map (fun x => x * x)).sum)
    if na = 0 ∨ nb = 0 then 0 else dot / (na * nb)

/-- `RAG_SCORE_THRESHOLD` from rag.py / lambda_function.py. -/
noncomputable def RAG_SCORE_THRESHOLD : ℝ := 0.30

/-- `RAG_TOP_K` from rag.py / lambda_function.py. -/
def RAG_TOP_K : Nat := 5

/-- `RAG_MAX_CHARS` from rag.py / lambda_function.py. -/
def RAG_MAX_CHARS : Nat := 4000

/-- One raw item of the chunks table as seen by `retrieve_context`, with
the `embedding` attribute already JSON-parsed (`none` = the
`json.loads` parse failed and the item is skipped). -/
structure ChunkItem where
  chunk_text : String
  filename : String
  chunk_index : Nat
  embedding : Option (List ℝ)

/-- A scored fragment dict as built by `retrieve_context`. -/
structure ScoredFrag where
  chunk_text : String
  filename : String
  chunk_index : Nat
  score : ℝ

/-- The body of the scoring loop of `retrieve_context` for one item: skip
it when its embedding did not parse (`continue` on `JSONDecodeError`),
score it against the query embedding, skip it when the score is below the
threshold (`continue`), otherwise build the scored fragment dict. -/
noncomputable def scoreOne (qe : List ℝ) (it : ChunkItem) : Option ScoredFrag :=
  match it.embedding with
  | none => none
  | some emb =>
    let s := cosineSimilarity qe emb
    if s < RAG_SCORE_THRESHOLD then none
    else some ⟨it.chunk_text, it.filename, it.chunk_index, s⟩

/-- The scoring loop of `retrieve_context`, in the original chunk order. -/
noncomputable def scoreItems (qe : List ℝ) (items : List ChunkItem) : List ScoredFrag :=
  items.filterMap (scoreOne qe)

/-- Python `scored.sort(key=lambda x: x["score"], reverse=True)`: a stable
descending sort, modelled by insertion sort with the relation that places
`x` before `y` exactly when `x`'s score is at least `y`'s (so equal scores
keep their original relative order). -/
noncomputable def rankFrags (l : List ScoredFrag) : List ScoredFrag :=
  List.insertionSort (fun x y => y.score ≤ x.score) l

/-- `retrieve_context` from rag.py, given the query embedding (the
`_embed_text` service result; empty = embedding unavailable) and the user's
chunk items (the fully paginated DynamoDB query result). -/
noncomputable def retrieveContext (qe : List ℝ) (items : List ChunkItem)
    (topK : Nat) : List ScoredFrag :=
  if qe.isEmpty then []
  else (rankFrags (scoreItems qe items)).take topK

/-- The context-accumulation loop of `build_rag_prompt`: walk the fragments
in order, stopping (`break`) before the first fragment that would push the
running character total over `RAG_MAX_CHARS`. -/
def collectParts (total : Nat) : List ScoredFrag → List String
  | [] => []
  | c :: rest =>
    let t := String.mk (pyStrip c.chunk_text.data)
    if RAG_MAX_CHARS < total + t.length then []
    else
      ("[Source: " ++ c.filename ++ ", chunk " ++ toString c.chunk_index ++ "]\n" ++ t)
        :: collectParts (total + t.length) rest

/-- `build_rag_prompt` from rag.py (identical copy in lambda_function.py). -/
def buildRagPrompt (userMessage : String) (contextChunks : List ScoredFrag) : String :=
  if contextChunks.isEmpty then userMessage
  else
    let contextBlock := String.intercalate "\n\n---\n\n" (collectParts 0 contextChunks)
    "Use the following excerpts from the user's documents to help answer " ++
    "their question. If the excerpts are not relevant, answer from your " ++
    "general knowledge instead.\n\nCONTEXT:\n" ++ contextBlock ++
    "\n\nUSER QUESTION:\n" ++ userMessage

/-! ### The claim C4 cut-point rule, modelled from the spec's words -/

/-- Modelled from the spec (claim C4), for comparison with `chunkEnd`: try
the three break patterns in preference order — sentence-ending period
followed by space, then period followed by newline, then double newline —
accepting a found candidate only if it leaves at least `overlap` characters
of chunk body; otherwise the nearest preceding space; otherwise cut exactly
at `targetSize`. -/
def chunkEndSpecC4 (t : List Char) (cs o start : Int) : Int :=
  let e := start + cs
  if e < (t.length : Int) then
    let p1 := pyRfind t ['.', ' '] start e
    let p2 := pyRfind t ['.', '\n'] start e
    let p3 := pyRfind t ['\n', '\n'] start e
    let accept := fun (p : Int) => p ≠ -1 ∧ o ≤ (p + 1) - start
    if accept p1 then p1 + 1
    else if accept p2 then p2 + 1
    else if accept p3 then p3 + 1
    else
      let sp := pyRfind t [' '] start e
      if sp > start then sp else e
  else e

/-- `p` is an occurrence of `pat` fitting inside the window `[lo, hi)`;
used to characterise the backward searches of `chunk_text`. -/
def MatchIn (t pat : List Char) (lo hi p : Nat) : Prop :=
  lo ≤ p ∧ p + pat.length ≤ hi ∧ matchAtB t pat p = true

instance (t pat : List Char) (lo hi p : Nat) : Decidable (MatchIn t pat lo hi p) :=
  inferInstanceAs (Decidable (_ ∧ _ ∧ _))

/-- `p` is an occurrence of one of the three sentence-boundary patterns of
`chunk_text` inside the window `[lo, hi)`. -/
def BoundaryIn (t : List Char) (lo hi p : Nat) : Prop :=
  MatchIn t ['.', ' '] lo hi p ∨ MatchIn t ['.', '\n'] lo hi p ∨
    MatchIn t ['\n', '\n'] lo hi p

instance (t : List Char) (lo hi p : Nat) : Decidable (BoundaryIn t lo hi p) :=
  inferInstanceAs (Decidable (_ ∨ _ ∨ _))

/-! ## Helper lemmas -/

theorem quotaIter_succ (n : Nat) : quotaIter (n + 1) = some (min (n + 1) 20) := by
  induction n with
  | zero => rfl
  | succ m ih =>
    show (quotaUpdate DAILY_MSG_LIMIT (quotaIter (m + 1))).2 = _
    rw [ih]
    by_cases h : m + 1 < 20
    · have h1 : min (m + 1) 20 = m + 1 := by omega
      have h2 : min (m + 2) 20 = m + 2 := by omega
      simp [quotaUpdate, DAILY_MSG_LIMIT, h1, h2, h]
    · have h1 : min (m + 1) 20 = 20 := by omega
      have h2 : min (m + 2) 20 = 20 := by omega
      simp [quotaUpdate, DAILY_MSG_LIMIT, h1, h2]

theorem storeChunksLoop_fst (embedSvc : String → Except String (List ℝ))
    (user key : String) (chunks : List (Nat × String)) :
    (storeChunksLoop embedSvc user key chunks).1 =
      (chunks.takeWhile (fun c => (embedSvc c.2).toOption.isSome)).map
        (fun c => ⟨user, key ++ "#" ++ pad5 c.1, key, baseName key, c.1, c.2,
          (embedSvc c.2).toOption.getD []⟩) := by
  induction chunks with
  | nil => rfl
  | cons c rest ih =>
    obtain ⟨i, body⟩ := c
    cases h : embedSvc body with
    | error msg => simp [storeChunksLoop, h, List.takeWhile, Except.toOption]
    | ok v => simp [storeChunksLoop, h, List.takeWhile, Except.toOption, ih]

theorem storeChunksLoop_snd_none (embedSvc : String → Except String (List ℝ))
    (user key : String) (chunks : List (Nat × String)) :
    (storeChunksLoop embedSvc user key chunks).2 = none ↔
      ∀ c ∈ chunks, (embedSvc c.2).toOption.isSome = true := by
  induction chunks with
  | nil => simp [storeChunksLoop]
  | cons c rest ih =>
    obtain ⟨i, body⟩ := c
    cases h : embedSvc body with
    | error msg => simp [storeChunksLoop, h, Except.toOption]
    | ok v => simp [storeChunksLoop, h, Except.toOption, ih]

theorem extractText_fallback (readObj ocr : Except String String) (key : String)
    (hkey : extOf key ∉ allowedExtensions) :
    extractText readObj ocr key =
      match readObj with
      | .ok t => .ok t
      | .error msg => .error (.unsupportedType (extOf key) msg) := by
  have e1 : (extOf key = "txt") = False :=
    eq_false (fun h => hkey (by rw [h]; decide))
  have e2 : (extOf key = "csv") = False :=
    eq_false (fun h => hkey (by rw [h]; decide))
  have e3 : (extOf key = "md") = False :=
    eq_false (fun h => hkey (by rw [h]; decide))
  have e4 : (extOf key = "pdf") = False :=
    eq_false (fun h => hkey (by rw [h]; decide))
  have e5 : (extOf key = "png") = False :=
    eq_false (fun h => hkey (by rw [h]; decide))
  have e6 : (extOf key = "jpg") = False :=
    eq_false (fun h => hkey (by rw [h]; decide))
  have e7 : (extOf key = "jpeg") = False :=
    eq_false (fun h => hkey (by rw [h]; decide))
  have e8 : (extOf key = "tiff") = False :=
    eq_false (fun h => hkey (by rw [h]; decide))
  have e9 : (extOf key = "docx") = False :=
    eq_false (fun h => hkey (by rw [h]; decide))
  simp only [extractText, e1, e2, e3, e4, e5, e6, e7, e8, e9, or_self, if_false]

theorem chunkLoop_none_of_fixpoint (t : List Char) (cs o s : Int)
    (hlt : s < (t.length : Int)) (hfix : chunkEnd t cs o s - o = s) :
    ∀ fuel idx, chunkLoop t cs o fuel s idx = none := by
  intro fuel
  induction fuel with
  | zero => intro idx; simp [chunkLoop, hlt]
  | succ m ih =>
    intro idx
    simp only [chunkLoop, if_pos hlt]
    rw [hfix]
    by_cases hc : pyStrip (pySlice t s (chunkEnd t cs o s)) = []
    · simp [hc, ih]
    · simp [hc, ih]

/-! ## Claim theorems -/

/-- C1: `check_and_update_quota` (modelled by `quotaUpdate` on one
`(user_id, date)` counter with `DAILY_MSG_LIMIT = 20`) returns `true` and
increments the counter by exactly 1 precisely when the pre-increment count
(0 for an absent item) is strictly below 20, and otherwise returns `false`
leaving the counter unchanged; consequently, iterating from an absent
counter, after `n + 1` calls the counter is `min (n + 1) 20` and the
`(n + 1)`-th call returns `true` iff `n + 1 ≤ 20` — the 20th call returns
`true` and leaves the counter at 20, the 21st and all later calls return
`false` leaving it at 20. -/
theorem quota_conditional_increment (s : Option Nat) (n : Nat) :
    quotaUpdate DAILY_MSG_LIMIT s =
      (if s.getD 0 < 20 then (true, some (s.getD 0 + 1)) else (false, s)) ∧
    quotaIter (n + 1) = some (min (n + 1) 20) ∧
    (quotaCall (n + 1) = true ↔ n + 1 ≤ 20) := by
  refine ⟨?_, quotaIter_succ n, ?_⟩
  · cases s with
    | none => simp [quotaUpdate, DAILY_MSG_LIMIT]
    | some c => by_cases h : c < 20 <;> simp [quotaUpdate, DAILY_MSG_LIMIT, h]
  · cases n with
    | zero => simp [quotaCall, quotaIter, quotaUpdate, DAILY_MSG_LIMIT]
    | succ m =>
      show (quotaUpdate DAILY_MSG_LIMIT (quotaIter (m + 1))).1 = true ↔ _
      rw [quotaIter_succ m]
      by_cases h : m + 1 < 20
      · have h1 : min (m + 1) 20 = m + 1 := by omega
        simp [quotaUpdate, DAILY_MSG_LIMIT, h1, h]
        omega
      · have h1 : min (m + 1) 20 = 20 := by omega
        simp [quotaUpdate, DAILY_MSG_LIMIT, h1]
        omega

/-- C2 counterexample: an embedding-service failure during ingestion does
raise to the pipeline. With an embedding service that fails, processing a
document with the single chunk `(0, "hello")` stores nothing — the failing
chunk is not stored with an absent vector — and the document's status
becomes `error`, not `indexed`. -/
theorem embedding_failure_counterexample :
    processAfterChunking (fun _ => Except.error "boom") "u" "u/a.txt" [(0, "hello")] =
      (DocStatus.error "boom", []) := rfl

/-- C2 (amended): during ingestion, `generate_embedding` does not catch
service errors; an embedding failure on one chunk aborts the document's
embed-and-store loop. Exactly the chunks strictly before the first failing
chunk are stored (each with its vector), the failing chunk and all later
chunks are not stored, and the document is marked `indexed` (with the full
chunk count) iff every chunk's embedding succeeded — otherwise the
top-level handler records status `error`. -/
theorem embedding_failure_aborts_document (embedSvc : String → Except String (List ℝ))
    (user key : String) (chunks : List (Nat × String)) :
    (processAfterChunking embedSvc user key chunks).2 =
      (chunks.takeWhile (fun c => (embedSvc c.2).toOption.isSome)).map
        (fun c => ⟨user, key ++ "#" ++ pad5 c.1, key, baseName key, c.1, c.2,
          (embedSvc c.2).toOption.getD []⟩) ∧
    ((processAfterChunking embedSvc user key chunks).1 = DocStatus.indexed chunks.length ↔
      ∀ c ∈ chunks, (embedSvc c.2).toOption.isSome = true) := by
  constructor
  · have h := storeChunksLoop_fst embedSvc user key chunks
    simp only [processAfterChunking]
    cases (storeChunksLoop embedSvc user key chunks).2 <;> simpa using h
  · rw [← storeChunksLoop_snd_none]
    simp only [processAfterChunking]
    cases h2 : (storeChunksLoop embedSvc user key chunks).2 with
    | none => simp
    | some msg => simp

set_option maxRecDepth 40000 in
/-- C3 (code bug): chunk_text does not terminate on all inputs with
`0 ≤ overlap < targetSize`, so the window start cannot strictly increase on
every iteration. With text `"a b"`, targetSize 2, overlap 1, the first
window cuts at the space (end = 1) and the overlap slide returns the window
start to 0, a fixed point: for every fuel the loop is still running. The
same fixed point occurs with the production parameters 500/100 on the
601-character text of 100 `x`, one space, and 500 `y`: the only space sits
exactly `overlap` characters into the window, the window cuts there
(end = 100) and the slide returns the start to `100 - 100 = 0`. -/
theorem chunk_text_nonterminating :
    (∀ fuel : Nat, chunkText "a b" 2 1 fuel = none) ∧
    (∀ fuel : Nat,
      chunkText (String.mk (List.replicate 100 'x' ++ ' ' :: List.replicate 500 'y'))
        500 100 fuel = none) := by
  constructor
  · intro fuel
    have h := chunkLoop_none_of_fixpoint (pyNormalize "a b".data) 2 1 0 (by decide) (by decide)
    simp [chunkText, h fuel 0]
  · intro fuel
    have h := chunkLoop_none_of_fixpoint
      (pyNormalize (List.replicate 100 'x' ++ ' ' :: List.replicate 500 'y')) 500 100 0
      (by decide) (by decide)
    unfold chunkText
    rw [show (String.mk (List.replicate 100 'x' ++ ' ' :: List.replicate 500 'y')).data
        = List.replicate 100 'x' ++ ' ' :: List.replicate 500 'y' from rfl]
    rw [h fuel 0]
    rfl

/-- C8: `build_rag_prompt` with an empty fragment list returns the user
message unchanged — no CONTEXT framing is added. -/
theorem build_rag_prompt_empty (userMessage : String) :
    buildRagPrompt userMessage [] = userMessage := rfl

/-- C9 counterexample: `extract_text` does not fail with an
unsupported-type error for every extension outside the allow-list: for
`u/notes.xyz` (extension `xyz`, not allow-listed) it falls back to a
plain-text read and returns the object's body. -/
theorem extract_text_unknown_ext_fallback :
    extractText (Except.ok "hello") (Except.ok "") "u/notes.xyz" = Except.ok "hello" := by
  rw [extractText_fallback _ _ _ (by decide)]

/-- C9 (amended): the ingestion pipeline rejects an object whose filename
extension is not in the allow-list before any extraction: the record's
outcome is an `error` status with the unsupported-type message, independent
of the extraction services, the object size and the fuel. `extract_text`
itself, called on a key whose extension is outside its dispatch table,
does not fail when the plain-text fallback read succeeds — it returns the
read text — and raises the `Unsupported file type` ValueError only when
that read fails. -/
theorem unsupported_extension_rejected (readObj ocr : Except String String)
    (embedSvc : String → Except String (List ℝ)) (sizeBytes fuel : Nat)
    (key user filename t msg : String)
    (hsplit : splitUserKey key = some (user, filename))
    (hext : extOf filename ∉ allowedExtensions)
    (hkey : extOf key ∉ allowedExtensions) :
    processRecord readObj ocr embedSvc sizeBytes key fuel =
      RecOutcome.errored ("Unsupported file type '." ++ extOf filename ++ "'. Skipping.") ∧
    extractText (Except.ok t) ocr key = Except.ok t ∧
    extractText (Except.error msg) ocr key =
      Except.error (ExtErr.unsupportedType (extOf key) msg) := by
  refine ⟨?_, ?_, ?_⟩
  · simp only [processRecord, hsplit]
    rw [if_pos hext]
  · rw [extractText_fallback _ _ _ hkey]
  · rw [extractText_fallback _ _ _ hkey]

/-- C9 witness: the amended theorem at a concrete record (key
`u/notes.xyz`, a successful 3-byte read, any OCR result). -/
theorem unsupported_extension_rejected_witness :
    processRecord (Except.ok "abc") (Except.ok "") (fun _ => Except.ok []) 3 "u/notes.xyz" 0 =
      RecOutcome.errored "Unsupported file type '.xyz'. Skipping." ∧
    extractText (Except.ok "body") (Except.ok "") "u/notes.xyz" = Except.ok "body" ∧
    extractText (Except.error "denied") (Except.ok "") "u/notes.xyz" =
      Except.error (ExtErr.unsupportedType "xyz" "denied") := by
  have h := unsupported_extension_rejected (Except.ok "abc") (Except.ok "")
    (fun _ => Except.ok []) 3 0 "u/notes.xyz" "u" "notes.xyz" "body" "denied"
    (by decide) (by decide) (by decide)
  simpa using h

/-! ## Cosine similarity and retrieval -/

theorem sumSq_nonneg (l : List ℝ) : 0 ≤ (l.map (fun x => x * x)).sum := by
  apply List.sum_nonneg
  intro x hx
  obtain ⟨y, _, rfl⟩ := List.mem_map.mp hx
  exact mul_self_nonneg y

theorem sumSq_eq_zero_iff (l : List ℝ) :
    (l.map (fun x => x * x)).sum = 0 ↔ ∀ x ∈ l, x = 0 := by
  induction l with
  | nil => simp
  | cons c rest ih =>
    simp only [List.map_cons, List.sum_cons, List.forall_mem_cons]
    rw [add_eq_zero_iff_of_nonneg (mul_self_nonneg c) (sumSq_nonneg rest), mul_self_eq_zero, ih]

theorem normSq_sqrt_eq_zero_iff (l : List ℝ) :
    Real.sqrt ((l.map (fun x => x * x)).sum) = 0 ↔ ∀ x ∈ l, x = 0 := by
  rw [Real.sqrt_eq_zero (sumSq_nonneg l), sumSq_eq_zero_iff]

open Classical in
/-- C6: `_cosine_similarity` is total (the guards prevent the
`ZeroDivisionError`) and returns 0 whenever the two vectors have different
lengths or either vector has Euclidean norm 0 (equivalently, all its
entries are 0) — in particular a zero vector paired with any vector yields
0 — and in all other cases returns the dot product divided by the product
of the two Euclidean norms. -/
theorem cosine_similarity_spec (a b : List ℝ) (n : Nat) :
    cosineSimilarity a b =
      (if a.length = b.length ∧ (∃ x ∈ a, x ≠ 0) ∧ (∃ y ∈ b, y ≠ 0) then
        ((a.zip b).map (fun p => p.1 * p.2)).sum /
          (Real.sqrt ((a.map (fun x => x * x)).sum) *
            Real.sqrt ((b.map (fun x => x * x)).sum))
      else 0) ∧
    cosineSimilarity (List.replicate n 0) b = 0 := by
  have main : ∀ a b : List ℝ, cosineSimilarity a b =
      (if a.length = b.length ∧ (∃ x ∈ a, x ≠ 0) ∧ (∃ y ∈ b, y ≠ 0) then
        ((a.zip b).map (fun p => p.1 * p.2)).sum /
          (Real.sqrt ((a.map (fun x => x * x)).sum) *
            Real.sqrt ((b.map (fun x => x * x)).sum))
      else 0) := by
    intro a b
    by_cases hlen : a.length = b.length
    · by_cases ha : a = []
      · subst ha
        simp [cosineSimilarity]
      · have hcond : ¬(a.length ≠ b.length ∨ a = []) := by simp [hlen, ha]
        simp only [cosineSimilarity]
        rw [if_neg hcond]
        by_cases hna : Real.sqrt ((a.map (fun x => x * x)).sum) = 0
        · rw [if_pos (Or.inl hna)]
          have hall : ∀ x ∈ a, x = 0 := (normSq_sqrt_eq_zero_iff a).mp hna
          have : ¬ ∃ x ∈ a, x ≠ 0 := by
            rintro ⟨x, hx, hne⟩; exact hne (hall x hx)
          rw [if_neg (by tauto)]
        · by_cases hnb : Real.sqrt ((b.map (fun x => x * x)).sum) = 0
          · rw [if_pos (Or.inr hnb)]
            have hall : ∀ y ∈ b, y = 0 := (normSq_sqrt_eq_zero_iff b).mp hnb
            have : ¬ ∃ y ∈ b, y ≠ 0 := by
              rintro ⟨y, hy, hne⟩; exact hne (hall y hy)
            rw [if_neg (by tauto)]
          · rw [if_neg (by tauto)]
            have hea : ∃ x ∈ a, x ≠ 0 := by
              by_contra hno
              push_neg at hno
              exact hna ((normSq_sqrt_eq_zero_iff a).mpr hno)
            have heb : ∃ y ∈ b, y ≠ 0 := by
              by_contra hno
              push_neg at hno
              exact hnb ((normSq_sqrt_eq_zero_iff b).mpr hno)
            rw [if_pos ⟨hlen, hea, heb⟩]
    · have hcond : a.length ≠ b.length ∨ a = [] := Or.inl hlen
      simp only [cosineSimilarity]
      rw [if_pos hcond, if_neg (by tauto)]
  refine ⟨main a b, ?_⟩
  rw [main]
  have hno : ¬ ∃ x ∈ List.replicate n (0 : ℝ), x ≠ 0 := by
    rintro ⟨x, hx, hne⟩
    exact hne (List.eq_of_mem_replicate hx)
  rw [if_neg (fun hcond => hno hcond.2.1)]

theorem scoreOne_score (qe : List ℝ) (it : ChunkItem) (e : ScoredFrag)
    (h : scoreOne qe it = some e) : RAG_SCORE_THRESHOLD ≤ e.score := by
  unfold scoreOne at h
  cases hemb : it.embedding with
  | none => rw [hemb] at h; cases h
  | some emb =>
    rw [hemb] at h
    by_cases hs : cosineSimilarity qe emb < RAG_SCORE_THRESHOLD
    · simp only [if_pos hs] at h
      cases h
    · simp only [if_neg hs] at h
      cases h
      exact not_lt.mp hs

theorem scoreItems_threshold (qe : List ℝ) (items : List ChunkItem) :
    ∀ e ∈ scoreItems qe items, RAG_SCORE_THRESHOLD ≤ e.score := by
  intro e he
  obtain ⟨it, _, heq⟩ := List.mem_filterMap.mp he
  exact scoreOne_score qe it e heq

theorem filter_orderedInsert_score (s : ℝ) (a : ScoredFrag) (l : List ScoredFrag) :
    (List.orderedInsert (fun x y => y.score ≤ x.score) a l).filter
        (fun e => decide (e.score = s)) =
      if a.score = s then a :: l.filter (fun e => decide (e.score = s))
      else l.filter (fun e => decide (e.score = s)) := by
  rw [List.orderedInsert_eq_take_drop, List.filter_append]
  by_cases hpa : a.score = s
  · rw [if_pos hpa]
    have htake : (l.takeWhile fun b => ¬ (b.score ≤ a.score)).filter
        (fun e => decide (e.score = s)) = [] := by
      rw [List.filter_eq_nil_iff]
      intro b hb
      have hpred := List.mem_takeWhile_imp hb
      have : ¬ (b.score ≤ a.score) := by simpa using hpred
      simp only [decide_eq_true_eq]
      intro hbs
      exact this (le_of_eq (hbs.trans hpa.symm))
    rw [htake, List.nil_append]
    conv_rhs => rw [← List.takeWhile_append_dropWhile
      (p := fun b => ¬ (b.score ≤ a.score)) (l := l)]
    rw [List.filter_append, htake, List.nil_append]
    simp [hpa]
  · rw [if_neg hpa]
    conv_rhs => rw [← List.takeWhile_append_dropWhile
      (p := fun b => ¬ (b.score ≤ a.score)) (l := l)]
    rw [List.filter_append]
    simp [hpa]

theorem filter_rankFrags_score (s : ℝ) (l : List ScoredFrag) :
    (rankFrags l).filter (fun e => decide (e.score = s)) =
      l.filter (fun e => decide (e.score = s)) := by
  induction l with
  | nil => rfl
  | cons a l ih =>
    show (List.orderedInsert _ a (List.insertionSort _ l)).filter _ = _
    rw [filter_orderedInsert_score s a (List.insertionSort _ l)]
    simp only [rankFrags] at ih
    by_cases hpa : a.score = s
    · rw [if_pos hpa, ih]
      simp [List.filter_cons, hpa]
    · rw [if_neg hpa, ih]
      simp [List.filter_cons, hpa]

theorem rankFrags_sorted (l : List ScoredFrag) :
    (rankFrags l).Sorted (fun x y => y.score ≤ x.score) := by
  haveI : IsTotal ScoredFrag (fun x y => y.score ≤ x.score) :=
    ⟨fun x y => le_total y.score x.score⟩
  haveI : IsTrans ScoredFrag (fun x y => y.score ≤ x.score) :=
    ⟨fun _ _ _ h1 h2 => le_trans h2 h1⟩
  exact List.sorted_insertionSort _ l

/-- C7: `retrieve_context` keeps only fragments whose similarity score is
at least the threshold, returns them sorted by descending score, the sort
is stable (filtering the ranked list to any fixed score value yields the
same sequence as filtering the pre-sort scored list, which is in original
chunk order), the ranking is a permutation of the scored list (nothing is
dropped or invented by the sort), and at most `topK` fragments are
returned. -/
theorem retrieve_context_spec (qe : List ℝ) (items : List ChunkItem) (topK : Nat) (s : ℝ) :
    (retrieveContext qe items topK).Forall (fun e => RAG_SCORE_THRESHOLD ≤ e.score) ∧
    (retrieveContext qe items topK).Sorted (fun x y => y.score ≤ x.score) ∧
    (rankFrags (scoreItems qe items)).Perm (scoreItems qe items) ∧
    (rankFrags (scoreItems qe items)).filter (fun e => decide (e.score = s)) =
      (scoreItems qe items).filter (fun e => decide (e.score = s)) ∧
    (retrieveContext qe items topK).length ≤ topK := by
  refine ⟨?_, ?_, List.perm_insertionSort _ _, filter_rankFrags_score s _, ?_⟩
  · rw [List.forall_iff_forall_mem]
    intro e he
    unfold retrieveContext at he
    by_cases hq : qe.isEmpty
    · rw [if_pos hq] at he; cases he
    · rw [if_neg hq] at he
      have h1 : e ∈ rankFrags (scoreItems qe items) := List.mem_of_mem_take he
      have h2 : e ∈ scoreItems qe items := by
        unfold rankFrags at h1
        exact (List.mem_insertionSort _).mp h1
      exact scoreItems_threshold qe items e h2
  · unfold retrieveContext
    by_cases hq : qe.isEmpty
    · rw [if_pos hq]; exact List.sorted_nil
    · rw [if_neg hq]
      exact (rankFrags_sorted _).sublist (List.take_sublist _ _)
  · unfold retrieveContext
    by_cases hq : qe.isEmpty
    · rw [if_pos hq]; simp
    · rw [if_neg hq]
      exact List.length_take_le _ _

/-! ## Whitespace stripping and newline normalisation -/

theorem dropWhile_ws_eq_self (l : List Char)
    (h : ∀ c, l.head? = some c → isWS c = false) : l.dropWhile isWS = l := by
  cases l with
  | nil => rfl
  | cons c cs => rw [List.dropWhile_cons, if_neg (by simp [h c rfl])]

theorem head?_dropWhile_ws (l : List Char) :
    ∀ c, (l.dropWhile isWS).head? = some c → isWS c = false := by
  induction l with
  | nil => intro c h; cases h
  | cons a as ih =>
    intro c h
    rw [List.dropWhile_cons] at h
    by_cases ha : isWS a = true
    · rw [if_pos ha] at h; exact ih c h
    · rw [if_neg ha] at h
      cases h
      simpa using ha

theorem pyStrip_head (l : List Char) :
    ∀ c, (pyStrip l).head? = some c → isWS c = false := by
  intro c h
  unfold pyStrip at h
  rw [List.head?_reverse] at h
  by_cases hnil : (l.dropWhile isWS).reverse.dropWhile isWS = []
  · rw [hnil] at h; cases h
  · obtain ⟨t, ht⟩ := List.dropWhile_suffix (l := (l.dropWhile isWS).reverse) (p := isWS)
    have hM : (l.dropWhile isWS).reverse.getLast? = some c := by
      rw [← ht, List.getLast?_append_of_ne_nil t hnil]
      exact h
    rw [List.getLast?_reverse] at hM
    exact head?_dropWhile_ws l c hM

theorem pyStrip_getLast (l : List Char) :
    ∀ c, (pyStrip l).getLast? = some c → isWS c = false := by
  intro c h
  unfold pyStrip at h
  rw [List.getLast?_reverse] at h
  exact head?_dropWhile_ws (l.dropWhile isWS).reverse c h

theorem pyStrip_eq_self (l : List Char)
    (hh : ∀ c, l.head? = some c → isWS c = false)
    (hl : ∀ c, l.getLast? = some c → isWS c = false) : pyStrip l = l := by
  unfold pyStrip
  rw [dropWhile_ws_eq_self l hh]
  rw [dropWhile_ws_eq_self l.reverse
    (fun c h => hl c (by rwa [List.head?_reverse] at h))]
  exact List.reverse_reverse l

theorem pyStrip_idem (l : List Char) : pyStrip (pyStrip l) = pyStrip l :=
  pyStrip_eq_self (pyStrip l) (pyStrip_head l) (pyStrip_getLast l)

theorem isWS_newline : isWS '\n' = true := by decide

theorem collapseGo_zero_cons (c : Char) (cs : List Char) (hc : isWS c = false) :
    collapseGo 0 (c :: cs) = c :: collapseGo 0 cs := by
  have hcn : ¬ (c = '\n') := fun h => by rw [h, isWS_newline] at hc; cases hc
  simp [collapseGo, hcn]

theorem collapseGo_getLast (s : List Char) :
    ∀ k, s ≠ [] → (∀ c, s.getLast? = some c → isWS c = false) →
      collapseGo k s ≠ [] ∧ (collapseGo k s).getLast? = s.getLast? := by
  induction s with
  | nil => intro k h; exact absurd rfl h
  | cons a as ih =>
    intro k _ hlast
    by_cases hAnil : as = []
    · subst hAnil
      have ha : isWS a = false := hlast a rfl
      have han : ¬ (a = '\n') := fun h => by rw [h, isWS_newline] at ha; cases ha
      simp only [collapseGo, if_neg han]
      refine ⟨by simp, ?_⟩
      rw [List.getLast?_append_of_ne_nil _ (by simp)]
      rfl
    · have hlast' : (a :: as).getLast? = as.getLast? := by
        cases as with
        | nil => exact absurd rfl hAnil
        | cons b bs => exact List.getLast?_cons_cons
      by_cases han : a = '\n'
      · subst han
        show collapseGo (k + 1) as ≠ [] ∧ _
        have := ih (k + 1) hAnil (fun c hc => hlast c (by rwa [hlast']))
        have hgo : collapseGo k ('\n' :: as) = collapseGo (k + 1) as := by
          simp [collapseGo]
        rw [hgo, hlast']
        exact this
      · have h0 := ih 0 hAnil (fun c hc => hlast c (by rwa [hlast']))
        have hgo : collapseGo k (a :: as) =
            List.replicate (if 3 ≤ k then 2 else k) '\n' ++ a :: collapseGo 0 as := by
          simp [collapseGo, han]
        rw [hgo, hlast']
        refine ⟨by simp, ?_⟩
        rw [List.getLast?_append_of_ne_nil _ (by simp)]
        cases hcg : collapseGo 0 as with
        | nil => exact absurd hcg h0.1
        | cons b bs =>
          rw [List.getLast?_cons_cons, ← hcg, h0.2]

theorem pyStrip_pyNormalize (l : List Char) :
    pyStrip (pyNormalize l) = pyNormalize l := by
  unfold pyNormalize
  cases hs : pyStrip l with
  | nil => simp [collapseGo, pyStrip]
  | cons c cs =>
    have hh : isWS c = false := pyStrip_head l c (by rw [hs]; rfl)
    have hlast : ∀ d, (c :: cs).getLast? = some d → isWS d = false := by
      intro d hd
      exact pyStrip_getLast l d (by rw [hs]; exact hd)
    apply pyStrip_eq_self
    · intro d hd
      rw [collapseGo_zero_cons c cs hh] at hd
      cases hd
      exact hh
    · intro d hd
      have := (collapseGo_getLast (c :: cs) 0 (by simp) hlast).2
      rw [this] at hd
      exact hlast d hd

theorem pyNormalize_ne_nil (l : List Char) (h : pyStrip l ≠ []) :
    pyNormalize l ≠ [] := by
  unfold pyNormalize
  cases hs : pyStrip l with
  | nil => exact absurd hs h
  | cons c cs =>
    have hh : isWS c = false := pyStrip_head l c (by rw [hs]; rfl)
    rw [collapseGo_zero_cons c cs hh]
    simp

/-! ## Chunker: single-chunk behaviour (C5) -/

theorem chunkLoop_done (t : List Char) (cs o : Int) (fuel : Nat) (s : Int) (idx : Nat)
    (h : ¬ s < (t.length : Int)) : chunkLoop t cs o fuel s idx = some [] := by
  cases fuel <;> simp [chunkLoop, h]

set_option maxRecDepth 10000 in
/-- C5 counterexample: with the production parameters (targetSize 500,
overlap 100), a 450-character text — strictly shorter than targetSize —
yields two chunks, not one: the sliding window advances to
`500 - 100 = 400 < 450` and emits a 50-character overlap tail. -/
theorem chunk_text_short_two_chunks :
    (chunkText (String.mk (List.replicate 450 'x')) 500 100 2).map List.length ≠ some 1 ∧
    chunkText (String.mk (List.replicate 450 'x')) 500 100 2 =
      some [(0, String.mk (List.replicate 450 'x')), (1, String.mk (List.replicate 50 'x'))] := by
  constructor
  · decide
  · decide

/-- C5 (amended): chunk_text yields exactly one chunk — index 0, equal
to the normalised input (stripped of surrounding whitespace, long newline
runs collapsed) — precisely for texts whose normalised form is nonempty
and at most `targetSize − overlap` characters long (for `0 ≤ overlap`).
Texts with normalised length strictly between `targetSize − overlap` and
`targetSize` additionally emit an overlap tail chunk, as the
counterexample shows. -/
theorem chunk_text_single_chunk (text : String) (cs o : Int) (fuel : Nat)
    (ho : 0 ≤ o) (hne : pyNormalize text.data ≠ [])
    (hlen : ((pyNormalize text.data).length : Int) ≤ cs - o) :
    chunkText text cs o (fuel + 1) = some [(0, String.mk (pyNormalize text.data))] := by
  have hlen1 : 1 ≤ (pyNormalize text.data).length := by
    cases h : pyNormalize text.data with
    | nil => exact absurd h hne
    | cons a as => simp [h]
  have hsT : pyStrip (pyNormalize text.data) = pyNormalize text.data :=
    pyStrip_pyNormalize text.data
  set T := pyNormalize text.data with hT
  have hcs : (T.length : Int) ≤ cs - o := hlen
  have hce : chunkEnd T cs o 0 = cs := by
    simp only [chunkEnd]
    rw [if_neg (show ¬ (0 + cs < (T.length : Int)) by omega)]
    omega
  have ha : pySliceIdx T.length 0 = 0 := by simp [pySliceIdx]
  have hb : pySliceIdx T.length cs = T.length := by
    unfold pySliceIdx
    rw [if_neg (show ¬ (cs < 0) by omega)]
    omega
  have hslice : pySlice T 0 cs = T := by
    unfold pySlice
    rw [ha, hb]
    simp
  have hloop : chunkLoop T cs o (fuel + 1) 0 0 = some [(0, T)] := by
    simp only [chunkLoop]
    rw [if_pos (show (0 : Int) < (T.length : Int) by omega)]
    rw [hce, hslice, hsT]
    rw [if_neg hne]
    rw [chunkLoop_done T cs o fuel (cs - o) 1 (by omega)]
    rfl
  unfold chunkText
  rw [hloop]
  rfl

/-- C5 witness for the amended theorem: the two-character text `"hi"` with
targetSize 5, overlap 2 (normalised length 2 ≤ 5 − 2) yields exactly the
single chunk `(0, "hi")`. -/
theorem chunk_text_single_chunk_witness :
    chunkText "hi" 5 2 1 = some [(0, "hi")] := by
  have h := chunk_text_single_chunk "hi" 5 2 0 (by decide) (by decide) (by decide)
  have he : String.mk (pyNormalize "hi".data) = "hi" := by decide
  rw [he] at h
  exact h

/-! ## Backward-search characterisation (Python rfind) -/

theorem rfindDown_spec (t pat : List Char) (lo : Nat) :
    ∀ i : Nat,
      (rfindDown t pat lo i = -1 ∧ ∀ j, lo ≤ j → j ≤ i → matchAtB t pat j = false) ∨
      (∃ j : Nat, rfindDown t pat lo i = (j : Int) ∧ lo ≤ j ∧ j ≤ i ∧
        matchAtB t pat j = true ∧
        ∀ k, lo ≤ k → k ≤ i → matchAtB t pat k = true → k ≤ j) := by
  intro i
  induction i with
  | zero =>
    by_cases h : lo = 0 ∧ matchAtB t pat 0 = true
    · right
      refine ⟨0, ?_, by omega, le_refl 0, h.2, fun k _ hk _ => hk⟩
      simp [rfindDown, h.1, h.2]
    · left
      constructor
      · simp only [rfindDown]
        rw [if_neg (by simpa using h)]
      · intro j h1 h2
        have hj : j = 0 := by omega
        subst hj
        have hlo : lo = 0 := by omega
        rcases Bool.eq_false_or_eq_true (matchAtB t pat 0) with ht | hf
        · exact absurd ⟨hlo, ht⟩ h
        · exact hf
  | succ i ih =>
    by_cases hc : lo ≤ i + 1 ∧ matchAtB t pat (i + 1) = true
    · right
      refine ⟨i + 1, ?_, hc.1, le_refl _, hc.2, fun k _ hk _ => hk⟩
      simp only [rfindDown]
      rw [if_pos (by simpa using hc)]
      omega
    · have hstep : rfindDown t pat lo (i + 1) = rfindDown t pat lo i := by
        simp only [rfindDown]
        rw [if_neg (by simpa using hc)]
      rcases ih with ⟨he, hnone⟩ | ⟨j, he, h1, h2, h3, h4⟩
      · left
        refine ⟨by rw [hstep]; exact he, ?_⟩
        intro j hj1 hj2
        rcases Nat.lt_or_ge j (i + 1) with hlt | hge
        · exact hnone j hj1 (by omega)
        · have hj : j = i + 1 := by omega
          subst hj
          rcases Bool.eq_false_or_eq_true (matchAtB t pat (i + 1)) with ht | hf
          · exact absurd ⟨hj1, ht⟩ hc
          · exact hf
      · right
        refine ⟨j, by rw [hstep]; exact he, h1, by omega, h3, ?_⟩
        intro k hk1 hk2 hk3
        rcases Nat.lt_or_ge k (i + 1) with hlt | hge
        · exact h4 k hk1 (by omega) hk3
        · have hk : k = i + 1 := by omega
          subst hk
          exact absurd ⟨hk1, hk3⟩ hc

theorem pyRfind_spec (t pat : List Char) (a b : Int) :
    (pyRfind t pat a b = -1 ∧
      ∀ j, pySliceIdx t.length a ≤ j → j + pat.length ≤ pySliceIdx t.length b →
        matchAtB t pat j = false) ∨
    (∃ j : Nat, pyRfind t pat a b = (j : Int) ∧ pySliceIdx t.length a ≤ j ∧
      j + pat.length ≤ pySliceIdx t.length b ∧ matchAtB t pat j = true ∧
      ∀ k, pySliceIdx t.length a ≤ k → k + pat.length ≤ pySliceIdx t.length b →
        matchAtB t pat k = true → k ≤ j) := by
  simp only [pyRfind]
  by_cases hbig : pat.length ≤ pySliceIdx t.length b
  · rw [if_pos hbig]
    rcases rfindDown_spec t pat (pySliceIdx t.length a)
        (pySliceIdx t.length b - pat.length) with ⟨hr, hnone⟩ | ⟨j, hr, hj1, hj2, hj3, hj4⟩
    · left
      exact ⟨hr, fun j h1 h2 => hnone j h1 (by omega)⟩
    · right
      exact ⟨j, hr, hj1, by omega, hj3, fun k h1 h2 h3 => hj4 k h1 (by omega) h3⟩
  · rw [if_neg hbig]
    left
    refine ⟨rfl, fun j h1 h2 => absurd (show pat.length ≤ pySliceIdx t.length b by omega) hbig⟩

theorem pyRfind_cases (t pat : List Char) (a b : Int) :
    pyRfind t pat a b = -1 ∨
    (0 ≤ pyRfind t pat a b ∧
      (pySliceIdx t.length a : Int) ≤ pyRfind t pat a b ∧
      pyRfind t pat a b + (pat.length : Int) ≤ (pySliceIdx t.length b : Int)) := by
  rcases pyRfind_spec t pat a b with ⟨h, _⟩ | ⟨j, hr, h1, h2, _, _⟩
  · left; exact h
  · right
    rw [hr]
    refine ⟨by omega, by omega, by omega⟩

/-! ## Chunker: emitted-chunk shape (C10) -/

theorem pySliceIdx_le_length (n : Nat) (b : Int) : pySliceIdx n b ≤ n := by
  unfold pySliceIdx
  split <;> omega

theorem pySlice_length (l : List Char) (a b : Int) :
    (pySlice l a b).length = pySliceIdx l.length b - pySliceIdx l.length a := by
  unfold pySlice
  rw [List.length_drop, List.length_take]
  have h := pySliceIdx_le_length l.length b
  omega

theorem pySliceIdx_add_le (n : Nat) (s c : Int) (hc : 0 ≤ c) :
    pySliceIdx n (s + c) ≤ pySliceIdx n s + c.toNat := by
  by_cases h1 : s + c < 0 <;> by_cases h2 : s < 0 <;> simp [pySliceIdx, h1, h2] <;> omega

theorem pyStrip_length_le (l : List Char) : (pyStrip l).length ≤ l.length := by
  unfold pyStrip
  have h1 := (List.dropWhile_suffix (l := l) (p := isWS)).length_le
  have h2 := (List.dropWhile_suffix (l := (l.dropWhile isWS).reverse) (p := isWS)).length_le
  simp only [List.length_reverse] at h2 ⊢
  omega

theorem chunkEnd_bound (t : List Char) (cs o start : Int)
    (ho : 0 ≤ o) (hoc : o < cs) (hst : -(1 + o) ≤ start) :
    -1 ≤ chunkEnd t cs o start ∧
    pySliceIdx t.length (chunkEnd t cs o start) ≤ pySliceIdx t.length start + cs.toNat := by
  have hadd := pySliceIdx_add_le t.length start cs (by omega)
  simp only [chunkEnd]
  by_cases hin : start + cs < (t.length : Int)
  · rw [if_pos hin]
    have hr1 := pyRfind_cases t ['.', ' '] start (start + cs)
    have hr2 := pyRfind_cases t ['.', '\n'] start (start + cs)
    have hr3 := pyRfind_cases t ['\n', '\n'] start (start + cs)
    set r1 := pyRfind t ['.', ' '] start (start + cs) with hd1
    set r2 := pyRfind t ['.', '\n'] start (start + cs) with hd2
    set r3 := pyRfind t ['\n', '\n'] start (start + cs) with hd3
    by_cases hb : max r1 (max r2 r3) ≠ -1 ∧ max r1 (max r2 r3) > start + o
    · rw [if_pos hb]
      have hone : max r1 (max r2 r3) = r1 ∨ max r1 (max r2 r3) = r2 ∨
          max r1 (max r2 r3) = r3 := by
        rcases max_choice r1 (max r2 r3) with h | h
        · exact Or.inl h
        · rcases max_choice r2 r3 with h' | h'
          · exact Or.inr (Or.inl (h.trans h'))
          · exact Or.inr (Or.inr (h.trans h'))
      set B := max r1 (max r2 r3) with hB
      have hrange : 0 ≤ B ∧ B + 2 ≤ (pySliceIdx t.length (start + cs) : Int) := by
        rcases hone with h | h | h <;> rw [h] <;>
          [rcases hr1 with h' | h'; rcases hr2 with h' | h'; rcases hr3 with h' | h'] <;>
          first
            | (exfalso; apply hb.1; rw [h]; exact h')
            | (simp only [List.length_cons, List.length_nil] at h'; omega)
      constructor
      · omega
      · have hidx : pySliceIdx t.length (B + 1) ≤ (B + 1).toNat := by
          unfold pySliceIdx
          split <;> omega
        omega
    · rw [if_neg hb]
      have hsp := pyRfind_cases t [' '] start (start + cs)
      set sp := pyRfind t [' '] start (start + cs) with hdsp
      by_cases hspc : sp > start
      · rw [if_pos hspc]
        rcases hsp with h' | h'
        · -- no space found: sp = -1, so start < -1
          rw [h']
          have hstart : start < -1 := by omega
          constructor
          · omega
          · unfold pySliceIdx
            rw [if_pos (show (-1 : Int) < 0 by omega), if_pos (show start < 0 by omega)]
            omega
        · simp only [List.length_cons, List.length_nil] at h'
          constructor
          · omega
          · have hidx : pySliceIdx t.length sp ≤ sp.toNat := by
              unfold pySliceIdx
              split <;> omega
            omega
      · rw [if_neg hspc]
        exact ⟨by omega, hadd⟩
  · rw [if_neg hin]
    exact ⟨by omega, hadd⟩

theorem chunkLoop_shape (t : List Char) (cs o : Int) (ho : 0 ≤ o) (hoc : o < cs) :
    ∀ fuel start idx l, -(1 + o) ≤ start →
      chunkLoop t cs o fuel start idx = some l →
      ∀ p ∈ l, p.2 ≠ [] ∧ p.2.length ≤ cs.toNat ∧ pyStrip p.2 = p.2 := by
  intro fuel
  induction fuel with
  | zero =>
    intro start idx l hst hres
    by_cases h : start < (t.length : Int)
    · simp [chunkLoop, h] at hres
    · simp only [chunkLoop, if_neg h, Option.some.injEq] at hres
      subst hres
      intro p hp
      cases hp
  | succ m ih =>
    intro start idx l hst hres
    by_cases h : start < (t.length : Int)
    · simp only [chunkLoop, if_pos h] at hres
      have hbd := chunkEnd_bound t cs o start ho hoc hst
      have hst' : -(1 + o) ≤ chunkEnd t cs o start - o := by omega
      have hchunklen : (pyStrip (pySlice t start (chunkEnd t cs o start))).length ≤ cs.toNat := by
        have h1 := pyStrip_length_le (pySlice t start (chunkEnd t cs o start))
        have h2 := pySlice_length t start (chunkEnd t cs o start)
        omega
      by_cases hc : pyStrip (pySlice t start (chunkEnd t cs o start)) = []
      · rw [if_pos hc] at hres
        exact ih (chunkEnd t cs o start - o) idx l hst' hres
      · rw [if_neg hc] at hres
        cases hrec : chunkLoop t cs o m (chunkEnd t cs o start - o) (idx + 1) with
        | none => rw [hrec] at hres; cases hres
        | some rest =>
          rw [hrec] at hres
          simp only [Option.map_some', Option.some.injEq] at hres
          subst hres
          intro p hp
          rcases List.mem_cons.mp hp with rfl | hmem
          · exact ⟨hc, hchunklen, pyStrip_idem _⟩
          · exact ih (chunkEnd t cs o start - o) (idx + 1) rest hst' hrec p hmem
    · simp only [chunkLoop, if_neg h, Option.some.injEq] at hres
      subst hres
      intro p hp
      cases hp

/-- C10: every chunk emitted by a terminating run of chunk_text (with
`0 ≤ overlap < targetSize`) is nonempty, has at most `targetSize`
characters, and carries no leading or trailing whitespace (it is a fixed
point of stripping). -/
theorem chunk_text_chunk_shape (text : String) (cs o : Int) (fuel : Nat)
    (l : List (Nat × String)) (ho : 0 ≤ o) (hoc : o < cs)
    (hres : chunkText text cs o fuel = some l) :
    ∀ p ∈ l, p.2 ≠ "" ∧ p.2.length ≤ cs.toNat ∧ pyStrip p.2.data = p.2.data := by
  unfold chunkText at hres
  cases hloop : chunkLoop (pyNormalize text.data) cs o fuel 0 0 with
  | none => rw [hloop] at hres; cases hres
  | some raw =>
    rw [hloop] at hres
    simp only [Option.map_some', Option.some.injEq] at hres
    subst hres
    intro p hp
    obtain ⟨q, hq, rfl⟩ := List.mem_map.mp hp
    have hsh := chunkLoop_shape (pyNormalize text.data) cs o ho hoc fuel 0 0 raw
      (by omega) hloop q hq
    refine ⟨?_, hsh.2.1, hsh.2.2⟩
    intro hemp
    exact hsh.1 (congrArg String.data hemp)

/-- C10 witness: the single chunk of `chunk_text("hi", 5, 2)` is nonempty,
at most 5 characters long, and strip-fixed. -/
theorem chunk_text_chunk_shape_witness :
    ("hi" : String) ≠ "" ∧ ("hi" : String).length ≤ (5 : Int).toNat ∧
      pyStrip ("hi" : String).data = ("hi" : String).data := by
  have h := chunk_text_chunk_shape "hi" 5 2 1 [(0, "hi")] (by omega) (by omega)
    (by decide) (0, "hi") (by simp)
  exact h

/-! ## Chunker: cut-point selection (C4) -/

/-- C4 counterexample: in the window `[0, 10)` of `"ab. c\n\ndefghijk"`
with overlap 1, the claim's preference order (sentence period first)
selects the `". "` at position 2 and cuts at 3, while the code takes the
maximum of the three pattern positions — the `"\n\n"` at position 5 — and
cuts at 6. The cut point the claim describes differs from the one the code
computes. -/
theorem chunk_cut_preference_counterexample :
    chunkEndSpecC4 "ab. c\n\ndefghijk".data 10 1 0 = 3 ∧
    chunkEnd "ab. c\n\ndefghijk".data 10 1 0 = 6 ∧
    chunkEndSpecC4 "ab. c\n\ndefghijk".data 10 1 0 ≠
      chunkEnd "ab. c\n\ndefghijk".data 10 1 0 := by
  refine ⟨by decide, by decide, by decide⟩

theorem max3_greatest {r1 r2 r3 : Int} {P1 P2 P3 : Nat → Prop}
    (h1 : (r1 = -1 ∧ ∀ j, ¬ P1 j) ∨
      (∃ j : Nat, r1 = (j : Int) ∧ P1 j ∧ ∀ k, P1 k → k ≤ j))
    (h2 : (r2 = -1 ∧ ∀ j, ¬ P2 j) ∨
      (∃ j : Nat, r2 = (j : Int) ∧ P2 j ∧ ∀ k, P2 k → k ≤ j))
    (h3 : (r3 = -1 ∧ ∀ j, ¬ P3 j) ∨
      (∃ j : Nat, r3 = (j : Int) ∧ P3 j ∧ ∀ k, P3 k → k ≤ j)) :
    (max r1 (max r2 r3) = -1 ∧ ∀ j, ¬ (P1 j ∨ P2 j ∨ P3 j)) ∨
    (∃ j : Nat, max r1 (max r2 r3) = (j : Int) ∧ (P1 j ∨ P2 j ∨ P3 j) ∧
      ∀ k, (P1 k ∨ P2 k ∨ P3 k) → k ≤ j) := by
  rcases h1 with ⟨e1, n1⟩ | ⟨j1, e1, m1, g1⟩ <;>
    rcases h2 with ⟨e2, n2⟩ | ⟨j2, e2, m2, g2⟩ <;>
      rcases h3 with ⟨e3, n3⟩ | ⟨j3, e3, m3, g3⟩ <;>
        rw [e1, e2, e3]
  · left
    refine ⟨by norm_num, ?_⟩
    rintro j (h | h | h)
    exacts [n1 j h, n2 j h, n3 j h]
  · right
    refine ⟨j3, by omega, Or.inr (Or.inr m3), ?_⟩
    rintro k (h | h | h)
    exacts [absurd h (n1 k), absurd h (n2 k), g3 k h]
  · right
    refine ⟨j2, by omega, Or.inr (Or.inl m2), ?_⟩
    rintro k (h | h | h)
    exacts [absurd h (n1 k), g2 k h, absurd h (n3 k)]
  · right
    refine ⟨max j2 j3, by push_cast; omega, ?_, ?_⟩
    · rcases max_choice j2 j3 with h | h <;> rw [h]
      · exact Or.inr (Or.inl m2)
      · exact Or.inr (Or.inr m3)
    · rintro k (h | h | h)
      · exact absurd h (n1 k)
      · have := g2 k h; omega
      · have := g3 k h; omega
  · right
    refine ⟨j1, by omega, Or.inl m1, ?_⟩
    rintro k (h | h | h)
    exacts [g1 k h, absurd h (n2 k), absurd h (n3 k)]
  · right
    refine ⟨max j1 j3, by push_cast; omega, ?_, ?_⟩
    · rcases max_choice j1 j3 with h | h <;> rw [h]
      · exact Or.inl m1
      · exact Or.inr (Or.inr m3)
    · rintro k (h | h | h)
      · have := g1 k h; omega
      · exact absurd h (n2 k)
      · have := g3 k h; omega
  · right
    refine ⟨max j1 j2, by push_cast; omega, ?_, ?_⟩
    · rcases max_choice j1 j2 with h | h <;> rw [h]
      · exact Or.inl m1
      · exact Or.inr (Or.inl m2)
    · rintro k (h | h | h)
      · have := g1 k h; omega
      · have := g2 k h; omega
      · exact absurd h (n3 k)
  · right
    refine ⟨max j1 (max j2 j3), by push_cast; omega, ?_, ?_⟩
    · rcases max_choice j1 (max j2 j3) with h | h <;> rw [h]
      · exact Or.inl m1
      · rcases max_choice j2 j3 with h' | h' <;> rw [h']
        · exact Or.inr (Or.inl m2)
        · exact Or.inr (Or.inr m3)
    · rintro k (h | h | h)
      · have := g1 k h; omega
      · have := g2 k h; omega
      · have := g3 k h; omega

/-- C4 (amended): for a window with the naive cut strictly inside the text,
chunk_text's cut point is characterised as follows. If some occurrence of
one of the three boundary patterns (`". "`, `".\n"`, `"\n\n"`) lies
strictly beyond `start + overlap`, the cut is one past the rightmost
boundary occurrence in the window (which itself lies strictly beyond
`start + overlap`) — the three patterns are combined by position, not in
preference order, and a candidate is accepted only when it exceeds
`start + overlap`, i.e. leaves strictly more than `overlap + 1` characters
of chunk body. Otherwise, if a space occurs strictly after the window
start, the cut is at the last such space. Otherwise the cut is exactly at
`start + targetSize`. -/
theorem chunk_cut_rightmost (t : List Char) (cs o start : Nat)
    (hin : start + cs < t.length) :
    ((∃ p, BoundaryIn t start (start + cs) p ∧ start + o < p) →
      ∃ p, BoundaryIn t start (start + cs) p ∧ start + o < p ∧
        (∀ q, BoundaryIn t start (start + cs) q → q ≤ p) ∧
        chunkEnd t (cs : Int) (o : Int) (start : Int) = (p : Int) + 1) ∧
    (¬ (∃ p, BoundaryIn t start (start + cs) p ∧ start + o < p) →
      ((∃ q, MatchIn t [' '] start (start + cs) q ∧ start < q) →
        ∃ q, MatchIn t [' '] start (start + cs) q ∧ start < q ∧
          (∀ r, MatchIn t [' '] start (start + cs) r → r ≤ q) ∧
          chunkEnd t (cs : Int) (o : Int) (start : Int) = (q : Int)) ∧
      (¬ (∃ q, MatchIn t [' '] start (start + cs) q ∧ start < q) →
        chunkEnd t (cs : Int) (o : Int) (start : Int) = (start : Int) + (cs : Int))) := by
  have hlo : pySliceIdx t.length ((start : Int)) = start := by
    unfold pySliceIdx
    rw [if_neg (by omega)]
    omega
  have hhi : pySliceIdx t.length ((start : Int) + (cs : Int)) = start + cs := by
    unfold pySliceIdx
    rw [if_neg (by omega)]
    omega
  have hinZ : (start : Int) + (cs : Int) < (t.length : Int) := by
    omega
  have conv : ∀ (pat : List Char) (r : Int),
      ((r = -1 ∧ ∀ j, start ≤ j → j + pat.length ≤ start + cs →
        matchAtB t pat j = false) ∨
       (∃ j : Nat, r = (j : Int) ∧ start ≤ j ∧ j + pat.length ≤ start + cs ∧
         matchAtB t pat j = true ∧
         ∀ k, start ≤ k → k + pat.length ≤ start + cs → matchAtB t pat k = true → k ≤ j)) →
      ((r = -1 ∧ ∀ j, ¬ MatchIn t pat start (start + cs) j) ∨
       (∃ j : Nat, r = (j : Int) ∧ MatchIn t pat start (start + cs) j ∧
         ∀ k, MatchIn t pat start (start + cs) k → k ≤ j)) := by
    intro pat r h
    rcases h with ⟨he, hn⟩ | ⟨j, he, ha, hb, hm, hg⟩
    · left
      refine ⟨he, fun j hj => ?_⟩
      exact absurd (hj.2.2.symm.trans (hn j hj.1 hj.2.1)) (by simp)
    · right
      exact ⟨j, he, ⟨ha, hb, hm⟩, fun k hk => hg k hk.1 hk.2.1 hk.2.2⟩
  have hs1 := pyRfind_spec t ['.', ' '] (start : Int) ((start : Int) + (cs : Int))
  have hs2 := pyRfind_spec t ['.', '\n'] (start : Int) ((start : Int) + (cs : Int))
  have hs3 := pyRfind_spec t ['\n', '\n'] (start : Int) ((start : Int) + (cs : Int))
  have hs4 := pyRfind_spec t [' '] (start : Int) ((start : Int) + (cs : Int))
  rw [hlo, hhi] at hs1 hs2 hs3 hs4
  have hmax := max3_greatest (conv _ _ hs1) (conv _ _ hs2) (conv _ _ hs3)
  have hsp := conv _ _ hs4
  constructor
  · rintro ⟨p, hpB, hpo⟩
    rcases hmax with ⟨hBe, hno⟩ | ⟨pk, hBe, hBk, hBg⟩
    · exact absurd hpB (hno p)
    · have hple : p ≤ pk := hBg p hpB
      refine ⟨pk, hBk, by omega, hBg, ?_⟩
      simp only [chunkEnd]
      rw [if_pos hinZ]
      rw [if_pos (show max (pyRfind t ['.', ' '] (start : Int) ((start : Int) + (cs : Int)))
          (max (pyRfind t ['.', '\n'] (start : Int) ((start : Int) + (cs : Int)))
            (pyRfind t ['\n', '\n'] (start : Int) ((start : Int) + (cs : Int)))) ≠ -1 ∧
          max (pyRfind t ['.', ' '] (start : Int) ((start : Int) + (cs : Int)))
          (max (pyRfind t ['.', '\n'] (start : Int) ((start : Int) + (cs : Int)))
            (pyRfind t ['\n', '\n'] (start : Int) ((start : Int) + (cs : Int)))) >
            (start : Int) + (o : Int) by
        rw [hBe]
        constructor
        · omega
        · omega)]
      rw [hBe]
  · intro hnex
    have hcond : ¬ (max (pyRfind t ['.', ' '] (start : Int) ((start : Int) + (cs : Int)))
        (max (pyRfind t ['.', '\n'] (start : Int) ((start : Int) + (cs : Int)))
          (pyRfind t ['\n', '\n'] (start : Int) ((start : Int) + (cs : Int)))) ≠ -1 ∧
        max (pyRfind t ['.', ' '] (start : Int) ((start : Int) + (cs : Int)))
        (max (pyRfind t ['.', '\n'] (start : Int) ((start : Int) + (cs : Int)))
          (pyRfind t ['\n', '\n'] (start : Int) ((start : Int) + (cs : Int)))) >
          (start : Int) + (o : Int)) := by
      rcases hmax with ⟨hBe, hno⟩ | ⟨pk, hBe, hBk, hBg⟩
      · rw [hBe]
        simp
      · rw [hBe]
        rintro ⟨_, hgt⟩
        exact hnex ⟨pk, hBk, by omega⟩
    constructor
    · rintro ⟨q, hqM, hq⟩
      rcases hsp with ⟨hse, hsn⟩ | ⟨qs, hse, hsM, hsg⟩
      · exact absurd hqM (hsn q)
      · have hqle : q ≤ qs := hsg q hqM
        refine ⟨qs, hsM, by omega, hsg, ?_⟩
        simp only [chunkEnd]
        rw [if_pos hinZ, if_neg hcond]
        rw [if_pos (show pyRfind t [' '] (start : Int) ((start : Int) + (cs : Int)) >
            (start : Int) by rw [hse]; omega)]
        exact hse
    · intro hnsp
      have hspc : ¬ (pyRfind t [' '] (start : Int) ((start : Int) + (cs : Int)) >
          (start : Int)) := by
        rcases hsp with ⟨hse, hsn⟩ | ⟨qs, hse, hsM, hsg⟩
        · rw [hse]; omega
        · rw [hse]
          intro hgt
          exact hnsp ⟨qs, hsM, by omega⟩
      simp only [chunkEnd]
      rw [if_pos hinZ, if_neg hcond, if_neg hspc]

/-- C4 witness: the amended characterisation at the concrete window
`[0, 10)` of `"ab. c\n\ndefghijk"` with overlap 1: the rightmost boundary
occurrence is the double newline at 5 and the code cuts at 6. -/
theorem chunk_cut_rightmost_witness :
    ∃ p, BoundaryIn "ab. c\n\ndefghijk".data 0 (0 + 10) p ∧ 0 + 1 < p ∧
      (∀ q, BoundaryIn "ab. c\n\ndefghijk".data 0 (0 + 10) q → q ≤ p) ∧
      chunkEnd "ab. c\n\ndefghijk".data ((10 : Nat) : Int) ((1 : Nat) : Int)
        ((0 : Nat) : Int) = (p : Int) + 1 :=
  (chunk_cut_rightmost "ab. c\n\ndefghijk".data 10 1 0 (by decide)).1
    ⟨5, by decide, by decide⟩

end KV
